import Mathlib

/-!
Verification of the core text-transformation and view-state pipeline of the
`mess` terminal document viewer (src/main.rs).

The development shallowly embeds, over `List Char`:
  * the inline tokenizer loop of `render_single_view` (src/main.rs:294-342),
  * the block normalizer `AppState::render_markdown` (src/main.rs:73-162),
  * the view/scroll state machine of `AppState` (src/main.rs:164-210).
-/

namespace Mess

/-- Styles of a painted span. In the source, `plain` is `Span::raw`; `bold` and
`headerBold` are both `Modifier::BOLD` spans (distinguished here by the branch
that produced them); `italic` is `Modifier::ITALIC`; `code` is the
`Color::Yellow` span. -/
inductive SegStyle where
  | plain
  | bold
  | italic
  | code
  | headerBold
deriving DecidableEq

/-- One styled span produced for a display line (spec name: StyledSegment). -/
structure StyledSegment where
  text : List Char
  style : SegStyle
deriving DecidableEq

/-- Characters the plain-text branch of the scan stops at: the closure
`|c| c == '*' || c == '`' || c == '#'` at src/main.rs:338. -/
def specialChar (c : Char) : Bool :=
  c == '*' || c == '`' || c == '#'

/-- Index of the first character satisfying `p`, as Rust `str::find(char pred)`. -/
def findChar (p : Char → Bool) : List Char → Option Nat
  | [] => none
  | c :: rest => if p c then some 0 else (findChar p rest).map (· + 1)

/-- Index of the first occurrence of `pat` as a contiguous substring, as Rust
`str::find(&str)`. -/
def findPat (pat : List Char) : List Char → Option Nat
  | [] => if pat.isPrefixOf ([] : List Char) then some 0 else none
  | c :: rest =>
    if pat.isPrefixOf (c :: rest) then some 0
    else (findPat pat rest).map (· + 1)

/-- Fuel-indexed version of the inline-tokenizer `while` loop of
`render_single_view` (src/main.rs:294-342; the identical loop also appears in
`render_side_by_side`, src/main.rs:402-445).  Each iteration consumes at least
one character, so fuel `l.length` always suffices; the fuel-0 case is reached
only on the empty remainder. -/
def tokenizeGo : Nat → List Char → List StyledSegment
  | 0, _ => []
  | fuel + 1, l =>
    if l = [] then []
    else if ('*' :: '*' :: []).isPrefixOf l then
      -- Bold: `remaining[2..].find("**")`
      match findPat ('*' :: '*' :: []) (l.drop 2) with
      | some e => ⟨(l.drop 2).take e, SegStyle.bold⟩ :: tokenizeGo fuel (l.drop (e + 4))
      | none => [⟨l, SegStyle.plain⟩]
    else if ('*' :: []).isPrefixOf l then
      -- Italic: `remaining[1..].find("*")`
      match findPat ('*' :: []) (l.drop 1) with
      | some e => ⟨(l.drop 1).take e, SegStyle.italic⟩ :: tokenizeGo fuel (l.drop (e + 2))
      | none => [⟨l, SegStyle.plain⟩]
    else if ('`' :: []).isPrefixOf l then
      -- Inline code: `remaining[1..].find("`")`
      match findPat ('`' :: []) (l.drop 1) with
      | some e => ⟨(l.drop 1).take e, SegStyle.code⟩ :: tokenizeGo fuel (l.drop (e + 2))
      | none => [⟨l, SegStyle.plain⟩]
    else if ('#' :: []).isPrefixOf l then
      -- Headers: run of '#' followed by a space consumes the rest of the line.
      -- The Rust local `header_level` is inlined here.
      if 0 < (l.takeWhile (fun c => c == '#')).length
          ∧ (l.takeWhile (fun c => c == '#')).length < l.length
          ∧ l[(l.takeWhile (fun c => c == '#')).length]? = some ' ' then
        [⟨l.drop ((l.takeWhile (fun c => c == '#')).length + 1), SegStyle.headerBold⟩]
      else
        [⟨l, SegStyle.plain⟩]
    else
      -- Regular text up to the next special character.
      -- The Rust local `next_special` is inlined here.
      ⟨l.take ((findChar specialChar l).getD l.length), SegStyle.plain⟩ ::
        tokenizeGo fuel (l.drop ((findChar specialChar l).getD l.length))

/-- The inline tokenizer applied to one display line with styling enabled
(the `ViewMode::Rendered` branch of `render_single_view`). -/
def tokenize_line (l : List Char) : List StyledSegment :=
  tokenizeGo l.length l

/-- Concatenation of the `text` fields of a segment sequence. -/
def segConcat : List StyledSegment → List Char
  | [] => []
  | s :: rest => s.text ++ segConcat rest

/-- Reconstruction relation: `Recon segs l` states that the line `l` is
recovered from the texts of `segs`, in order, by re-inserting exactly the
delimiter characters of each successfully matched marker (`**…**`, `*…*`,
`` `…` ``, and the leading `#`-run plus space of a header) and nothing else.
Plain segments contribute their text verbatim. -/
inductive Recon : List StyledSegment → List Char → Prop where
  | nil : Recon [] []
  | plain (t : List Char) (segs : List StyledSegment) (rest : List Char) :
      Recon segs rest → Recon (⟨t, SegStyle.plain⟩ :: segs) (t ++ rest)
  | bold (t : List Char) (segs : List StyledSegment) (rest : List Char) :
      Recon segs rest →
      Recon (⟨t, SegStyle.bold⟩ :: segs) ('*' :: '*' :: (t ++ '*' :: '*' :: rest))
  | italic (t : List Char) (segs : List StyledSegment) (rest : List Char) :
      Recon segs rest →
      Recon (⟨t, SegStyle.italic⟩ :: segs) ('*' :: (t ++ '*' :: rest))
  | code (t : List Char) (segs : List StyledSegment) (rest : List Char) :
      Recon segs rest →
      Recon (⟨t, SegStyle.code⟩ :: segs) ('`' :: (t ++ '`' :: rest))
  | header (k : Nat) (t : List Char) :
      1 ≤ k →
      Recon [⟨t, SegStyle.headerBold⟩] (List.replicate k '#' ++ ' ' :: t)

/-- View modes (src/main.rs:28-33). -/
inductive ViewMode where
  | Rendered
  | Source
  | SideBySide
deriving DecidableEq

/-- Application state (src/main.rs:35-43).  Text buffers are modelled as
character lists. -/
structure AppState where
  content : List Char
  rendered_content : List Char
  view_mode : ViewMode
  scroll_offset : Nat
  file_path : List Char
  is_markdown : Bool
deriving DecidableEq

/-- Struct construction at the end of `AppState::new` (src/main.rs:62-69).
File reading, the extension check and the markdown render are performed
before this point; their results are taken as arguments. -/
def AppState.init (content rendered_content file_path : List Char)
    (is_markdown : Bool) : AppState :=
  { content := content
    rendered_content := rendered_content
    view_mode := if is_markdown then ViewMode.Rendered else ViewMode.Source
    scroll_offset := 0
    file_path := file_path
    is_markdown := is_markdown }

/-- The advance action `AppState::toggle_view_mode` (src/main.rs:164-175). -/
def toggle_view_mode (s : AppState) : AppState :=
  if !s.is_markdown then s  -- Only toggle for markdown files
  else
    { s with
      view_mode :=
        match s.view_mode with
        | ViewMode.Rendered => ViewMode.Source
        | ViewMode.Source => ViewMode.SideBySide
        | ViewMode.SideBySide => ViewMode.Rendered
      scroll_offset := 0 }  -- Reset scroll when changing view

/-- The scroll-up action `AppState::scroll_up` (src/main.rs:177-183). -/
def scroll_up (s : AppState) (lines : Nat) : AppState :=
  if s.scroll_offset > lines then
    { s with scroll_offset := s.scroll_offset - lines }
  else
    { s with scroll_offset := 0 }

/-- The scroll-down action `AppState::scroll_down` (src/main.rs:185-191);
`max_lines.saturating_sub(1)` is truncated subtraction on `Nat`. -/
def scroll_down (s : AppState) (lines max_lines : Nat) : AppState :=
  if s.scroll_offset + lines < max_lines then
    { s with scroll_offset := s.scroll_offset + lines }
  else
    { s with scroll_offset := max_lines - 1 }

/-- Strip one trailing carriage return, as the `\r`-handling of
Rust `str::lines`. -/
def stripCR (l : List Char) : List Char :=
  match l.reverse with
  | '\r' :: t => t.reverse
  | _ => l

/-- Accumulator loop behind `rustLines`: `cur` is the reversed current line. -/
def linesAux (cur : List Char) : List Char → List (List Char)
  | [] => if cur = [] then [] else [cur.reverse]
  | c :: rest =>
    if c = '\n' then stripCR cur.reverse :: linesAux [] rest
    else linesAux (c :: cur) rest

/-- Rust `str::lines`: split at `\n` (stripping a `\r` immediately before it),
with the final line ending optional and no trailing empty line. -/
def rustLines (s : List Char) : List (List Char) :=
  linesAux [] s

/-- Content lines for the current view, `AppState::get_content_lines`
(src/main.rs:193-210).  In `SideBySide`, the longer of the two streams is
returned for scrollbar calculation. -/
def get_content_lines (s : AppState) : List (List Char) :=
  match s.view_mode with
  | ViewMode.Rendered => rustLines s.rendered_content
  | ViewMode.Source => rustLines s.content
  | ViewMode.SideBySide =>
    let rendered_lines := rustLines s.rendered_content
    let source_lines := rustLines s.content
    if source_lines.length < rendered_lines.length then rendered_lines
    else source_lines

/-- Scrollbar total used by `render_side_by_side`
(`rendered_lines.len().max(source_lines.len())`, src/main.rs:474). -/
def side_by_side_total (s : AppState) : Nat :=
  max (rustLines s.rendered_content).length (rustLines s.content).length

/-- Markdown events consumed by `AppState::render_markdown` (src/main.rs:77-154).
The pulldown-cmark parser producing them is an external collaborator, so the
normalizer is verified over arbitrary event streams; `other` stands for every
unhandled event kind (the `_ => {}` arm). -/
inductive MdEvent where
  | headingStart (level : Nat)
  | headingEnd
  | paragraphStart
  | paragraphEnd
  | codeBlockStart
  | codeBlockEnd
  | listStart
  | listEnd
  | itemStart
  | itemEnd
  | blockQuoteStart
  | blockQuoteEnd
  | strongStart
  | strongEnd
  | emphasisStart
  | emphasisEnd
  | code (t : List Char)
  | rule
  | text (t : List Char)
  | softBreak
  | hardBreak
  | other

/-- One iteration of the event loop of `render_markdown` (src/main.rs:77-154):
append to `result` the characters the matched arm pushes. -/
def emitEvent (result : List Char) : MdEvent → List Char
  | MdEvent.headingStart level => result ++ '\n' :: (List.replicate level '#' ++ [' '])
  | MdEvent.headingEnd => result ++ ['\n']
  | MdEvent.paragraphStart =>
    if result.getLast? = some '\n' then result else result ++ ['\n']
  | MdEvent.paragraphEnd => result ++ ['\n']
  | MdEvent.codeBlockStart => result ++ "\n```\n".toList
  | MdEvent.codeBlockEnd => result ++ "\n```\n".toList
  | MdEvent.listStart => result ++ ['\n']
  | MdEvent.listEnd => result ++ ['\n']
  | MdEvent.itemStart => result ++ "• ".toList
  | MdEvent.itemEnd => result ++ ['\n']
  | MdEvent.blockQuoteStart => result ++ "\n> ".toList
  | MdEvent.blockQuoteEnd => result ++ ['\n']
  | MdEvent.strongStart => result ++ ['*', '*']
  | MdEvent.strongEnd => result ++ ['*', '*']
  | MdEvent.emphasisStart => result ++ ['*']
  | MdEvent.emphasisEnd => result ++ ['*']
  | MdEvent.code t => result ++ "`".toList ++ t ++ "`".toList
  | MdEvent.rule => result ++ "\n---\n".toList
  | MdEvent.text t => result ++ t
  | MdEvent.softBreak => result ++ ['\n']
  | MdEvent.hardBreak => result ++ ['\n']
  | MdEvent.other => result

/-- The pattern `"\n\n\n"` of the clean-up loop. -/
def nnn : List Char := ['\n', '\n', '\n']

/-- Rust `result.replace("\n\n\n", "\n\n")`: one left-to-right, non-overlapping
replacement pass. -/
def replace3 : List Char → List Char
  | [] => []
  | [c] => [c]
  | [c1, c2] => [c1, c2]
  | c1 :: c2 :: c3 :: rest =>
    if c1 = '\n' ∧ c2 = '\n' ∧ c3 = '\n' then '\n' :: '\n' :: replace3 rest
    else c1 :: replace3 (c2 :: c3 :: rest)

/-- Rust `str::contains(pat)`: `pat` occurs as a contiguous substring. -/
def hasSubstr (pat : List Char) : List Char → Bool
  | [] => pat.isPrefixOf ([] : List Char)
  | c :: rest => pat.isPrefixOf (c :: rest) || hasSubstr pat rest

/-- Fuel-indexed version of the clean-up loop
`while result.contains("\n\n\n") { result = result.replace("\n\n\n", "\n\n") }`
(src/main.rs:157-159).  Each pass shortens the string, so fuel `s.length`
always suffices to reach the loop's exit condition. -/
def collapseGo : Nat → List Char → List Char
  | 0, s => s
  | fuel + 1, s => if hasSubstr nnn s then collapseGo fuel (replace3 s) else s

/-- The blank-line collapse pass of `render_markdown` (src/main.rs:157-159). -/
def collapseNewlines (s : List Char) : List Char :=
  collapseGo s.length s

/-- Rust `char::is_whitespace` (the Unicode White_Space property). -/
def rustIsWhitespace (c : Char) : Bool :=
  c = ' ' || c = '\t' || c = '\n' || c.val = 11 || c.val = 12 || c = '\r' ||
  c.val = 0x85 || c.val = 0xA0 || c.val = 0x1680 ||
  (0x2000 ≤ c.val && c.val ≤ 0x200A) ||
  c.val = 0x2028 || c.val = 0x2029 || c.val = 0x202F || c.val = 0x205F ||
  c.val = 0x3000

/-- Rust `str::trim_start`. -/
def trimStart (l : List Char) : List Char :=
  l.dropWhile rustIsWhitespace

/-- Rust `str::trim_end`. -/
def trimEnd (l : List Char) : List Char :=
  (l.reverse.dropWhile rustIsWhitespace).reverse

/-- Rust `str::trim`. -/
def trimRust (l : List Char) : List Char :=
  trimEnd (trimStart l)

/-- The block normalizer `AppState::render_markdown` (src/main.rs:73-162) as a
function of the event stream the external parser yields for the document:
fold the emission loop over the events, collapse blank lines, trim. -/
def render_markdown (events : List MdEvent) : List Char :=
  trimRust (collapseNewlines (events.foldl emitEvent []))

/-- Sample markdown-document state used for concrete instances. -/
def sampleMd : AppState :=
  { content := "# T\n\nbody\n".toList
    rendered_content := "# T\n\nbody".toList
    view_mode := ViewMode.Rendered
    scroll_offset := 0
    file_path := "a.md".toList
    is_markdown := true }

/-- Sample non-markdown-document state with a non-zero scroll position. -/
def samplePlain : AppState :=
  { content := "hello\nworld\n".toList
    rendered_content := "hello\nworld\n".toList
    view_mode := ViewMode.Source
    scroll_offset := 5
    file_path := "a.txt".toList
    is_markdown := false }

/-- Sample side-by-side state. -/
def sampleSbs : AppState :=
  { sampleMd with view_mode := ViewMode.SideBySide }

/-! ## View-state claims -/

/-- C2 counterexample: the view-mode cycle of `toggle_view_mode` has period
three, so four consecutive advance actions on a markdown document in
`Rendered` mode land on `Source`, not back on `Rendered`; the claim that four
advances return to the original mode is false. -/
theorem c2_counterexample :
    ¬ ((toggle_view_mode (toggle_view_mode (toggle_view_mode
        (toggle_view_mode sampleMd)))).view_mode = sampleMd.view_mode) := by
  decide

/-- C2 (amended): for a markdown document in any view mode, three consecutive
advance (toggle) actions return the view mode to the mode it started in, and
each advance action sets `scroll_offset` to 0. -/
theorem c2_amended_cycle (s : AppState) (h : s.is_markdown = true) :
    (toggle_view_mode (toggle_view_mode (toggle_view_mode s))).view_mode
      = s.view_mode
    ∧ (toggle_view_mode s).scroll_offset = 0
    ∧ (toggle_view_mode (toggle_view_mode s)).scroll_offset = 0
    ∧ (toggle_view_mode (toggle_view_mode (toggle_view_mode s))).scroll_offset
        = 0 := by
  obtain ⟨c, r, vm, off, p, md⟩ := s
  simp only at h
  subst h
  cases vm <;> simp [toggle_view_mode]

/-- C2 witness: the amended cycle property at the sample markdown state. -/
theorem c2_witness :
    sampleMd.is_markdown = true
    ∧ ((toggle_view_mode (toggle_view_mode (toggle_view_mode
          sampleMd))).view_mode = sampleMd.view_mode
       ∧ (toggle_view_mode sampleMd).scroll_offset = 0
       ∧ (toggle_view_mode (toggle_view_mode sampleMd)).scroll_offset = 0
       ∧ (toggle_view_mode (toggle_view_mode (toggle_view_mode
            sampleMd))).scroll_offset = 0) :=
  ⟨rfl, c2_amended_cycle sampleMd rfl⟩

/-- C5: `scroll_down` never reaches `count` when `count ≥ 1`, and `scroll_up`
never goes below zero — it computes exactly `max 0 (offset - n)` over the
integers. -/
theorem c5_scroll_saturation (s : AppState) (n count : Nat) (hc : 1 ≤ count) :
    (scroll_down s n count).scroll_offset < count
    ∧ 0 ≤ ((scroll_up s n).scroll_offset : Int)
    ∧ ((scroll_up s n).scroll_offset : Int)
        = max 0 ((s.scroll_offset : Int) - (n : Int)) := by
  refine ⟨?_, ?_, ?_⟩
  · unfold scroll_down
    split <;> simp <;> omega
  · exact Int.natCast_nonneg _
  · unfold scroll_up
    split <;> simp <;> omega

/-- C5 witness: the saturation property at the sample state with step 2 and
line count 5. -/
theorem c5_witness :
    1 ≤ 5
    ∧ ((scroll_down samplePlain 2 5).scroll_offset < 5
       ∧ 0 ≤ ((scroll_up samplePlain 2).scroll_offset : Int)
       ∧ ((scroll_up samplePlain 2).scroll_offset : Int)
           = max 0 ((samplePlain.scroll_offset : Int) - (2 : Int))) :=
  ⟨by decide, c5_scroll_saturation samplePlain 2 5 (by decide)⟩

/-- C6: in `SideBySide` mode the line stream returned by `get_content_lines`
(which drives the scroll bounds) has length `max(rendered lines, source
lines)`, which is exactly the scrollbar total of `render_side_by_side`. -/
theorem c6_side_by_side_total (s : AppState)
    (h : s.view_mode = ViewMode.SideBySide) :
    (get_content_lines s).length
      = max (rustLines s.rendered_content).length (rustLines s.content).length
    ∧ (get_content_lines s).length = side_by_side_total s := by
  have hmain : (get_content_lines s).length
      = max (rustLines s.rendered_content).length
          (rustLines s.content).length := by
    unfold get_content_lines
    rw [h]
    dsimp only
    split
    · rename_i hlt
      exact (Nat.max_eq_left hlt.le).symm
    · rename_i hge
      exact (Nat.max_eq_right (Nat.le_of_not_lt hge)).symm
  exact ⟨hmain, hmain⟩

/-- C6 witness: the side-by-side length law at the sample side-by-side state. -/
theorem c6_witness :
    sampleSbs.view_mode = ViewMode.SideBySide
    ∧ ((get_content_lines sampleSbs).length
        = max (rustLines sampleSbs.rendered_content).length
            (rustLines sampleSbs.content).length
       ∧ (get_content_lines sampleSbs).length = side_by_side_total sampleSbs) :=
  ⟨rfl, c6_side_by_side_total sampleSbs rfl⟩

/-- C9: a non-markdown document starts in `Source` view and any number of
advance (toggle) actions leaves it in `Source` (the `n = 0` case is the
initial mode). -/
theorem c9_non_markdown_lock (content rendered path : List Char) (n : Nat) :
    (toggle_view_mode^[n] (AppState.init content rendered path false)).view_mode
      = ViewMode.Source := by
  have hfix : toggle_view_mode (AppState.init content rendered path false)
      = AppState.init content rendered path false := by
    unfold toggle_view_mode
    simp [AppState.init]
  have hiter : toggle_view_mode^[n] (AppState.init content rendered path false)
      = AppState.init content rendered path false := by
    induction n with
    | zero => rfl
    | succ n ih => rw [Function.iterate_succ_apply, hfix]; exact ih
  rw [hiter]
  rfl

/-- C10: for a non-markdown document the advance action is a full no-op: the
early return skips the scroll reset, so both `scroll_offset` and the mode are
unchanged. -/
theorem c10_non_markdown_frame (s : AppState) (h : s.is_markdown = false) :
    (toggle_view_mode s).scroll_offset = s.scroll_offset
    ∧ (toggle_view_mode s).view_mode = s.view_mode := by
  unfold toggle_view_mode
  rw [h]
  simp

/-- C10 witness: the no-op frame property at the sample non-markdown state,
whose scroll offset is 5. -/
theorem c10_witness :
    samplePlain.is_markdown = false
    ∧ ((toggle_view_mode samplePlain).scroll_offset = samplePlain.scroll_offset
       ∧ (toggle_view_mode samplePlain).view_mode = samplePlain.view_mode) :=
  ⟨rfl, c10_non_markdown_frame samplePlain rfl⟩

/-! ## Normalizer: blank-line collapse -/

theorem hasSubstr_nil_pat (s : List Char) : hasSubstr [] s = true := by
  cases s <;> simp [hasSubstr]

theorem hasSubstr_cons_of (pat : List Char) (c : Char) (rest : List Char)
    (h : hasSubstr pat rest = true) : hasSubstr pat (c :: rest) = true := by
  simp [hasSubstr, h]

theorem hasSubstr_cons_iff (pat : List Char) (c : Char) (rest : List Char) :
    hasSubstr pat (c :: rest) = true
      ↔ pat <+: (c :: rest) ∨ hasSubstr pat rest = true := by
  simp only [hasSubstr, Bool.or_eq_true, List.isPrefixOf_iff_prefix]

theorem hasSubstr_append_right (pat t u : List Char)
    (h : hasSubstr pat u = true) : hasSubstr pat (t ++ u) = true := by
  induction t with
  | nil => exact h
  | cons c t ih => exact hasSubstr_cons_of pat c (t ++ u) ih

theorem hasSubstr_append_left (pat t u : List Char)
    (h : hasSubstr pat t = true) : hasSubstr pat (t ++ u) = true := by
  induction t with
  | nil =>
    have hp : pat = [] := by
      simpa [hasSubstr, List.isPrefixOf_iff_prefix] using h
    rw [hp]
    exact hasSubstr_nil_pat _
  | cons c t ih =>
    rcases (hasSubstr_cons_iff pat c t).mp h with h1 | h2
    · have hpre2 : pat <+: (c :: t) ++ u := h1.trans (List.prefix_append _ _)
      exact (hasSubstr_cons_iff pat c (t ++ u)).mpr (Or.inl hpre2)
    · exact hasSubstr_cons_of pat c (t ++ u) (ih h2)

theorem hasSubstr_length_le (pat s : List Char)
    (h : hasSubstr pat s = true) : pat.length ≤ s.length := by
  induction s with
  | nil =>
    have : pat <+: ([] : List Char) := by
      simpa [hasSubstr, List.isPrefixOf_iff_prefix] using h
    exact this.length_le
  | cons c rest ih =>
    rcases (hasSubstr_cons_iff pat c rest).mp h with h1 | h2
    · exact h1.length_le
    · exact Nat.le_trans (ih h2) (by simp)

theorem replace3_length_le (s : List Char) :
    (replace3 s).length ≤ s.length := by
  induction s using replace3.induct with
  | case1 => simp [replace3]
  | case2 c => simp [replace3]
  | case3 c1 c2 => simp [replace3]
  | case4 c1 c2 c3 rest h ih => simp [replace3, h]; omega
  | case5 c1 c2 c3 rest h ih => simp [replace3, h] at ih ⊢; omega

theorem replace3_length_lt (s : List Char) (h : hasSubstr nnn s = true) :
    (replace3 s).length < s.length := by
  induction s using replace3.induct with
  | case1 =>
    have := hasSubstr_length_le nnn [] h
    simp [nnn] at this
  | case2 c =>
    have := hasSubstr_length_le nnn [c] h
    simp [nnn] at this
  | case3 c1 c2 =>
    have := hasSubstr_length_le nnn [c1, c2] h
    simp [nnn] at this
  | case4 c1 c2 c3 rest hif ih =>
    have hle := replace3_length_le rest
    simp [replace3, hif]
    omega
  | case5 c1 c2 c3 rest hif ih =>
    have htail : hasSubstr nnn (c2 :: c3 :: rest) = true := by
      rcases (hasSubstr_cons_iff nnn c1 (c2 :: c3 :: rest)).mp h with h1 | h2
      · exfalso
        apply hif
        obtain ⟨u, hu⟩ := h1
        simp [nnn] at hu
        exact ⟨hu.1.symm, hu.2.1.symm, hu.2.2.1.symm⟩
      · exact h2
    have := ih htail
    simp [replace3, hif] at this ⊢
    omega

theorem collapseGo_no_nnn (f : Nat) :
    ∀ s : List Char, s.length ≤ f + 2 → hasSubstr nnn (collapseGo f s) = false := by
  induction f with
  | zero =>
    intro s hs
    cases h : hasSubstr nnn (collapseGo 0 s) with
    | false => rfl
    | true =>
      exfalso
      have := hasSubstr_length_le nnn s (by simpa [collapseGo] using h)
      simp [nnn] at this
      omega
  | succ f ih =>
    intro s hs
    simp only [collapseGo]
    split
    · rename_i h
      apply ih
      have := replace3_length_lt s h
      omega
    · rename_i h
      exact Bool.not_eq_true _ |>.mp h

theorem collapse_no_nnn (s : List Char) :
    hasSubstr nnn (collapseNewlines s) = false :=
  collapseGo_no_nnn s.length s (by omega)

theorem collapseGo_of_no (f : Nat) (s : List Char)
    (h : hasSubstr nnn s = false) : collapseGo f s = s := by
  cases f with
  | zero => rfl
  | succ f => simp [collapseGo, h]

theorem trimStart_decomp (l : List Char) :
    l.takeWhile rustIsWhitespace ++ trimStart l = l :=
  List.takeWhile_append_dropWhile _ _

theorem trimEnd_decomp (l : List Char) :
    trimEnd l ++ (l.reverse.takeWhile rustIsWhitespace).reverse = l := by
  conv_rhs =>
    rw [← List.reverse_reverse l,
      ← List.takeWhile_append_dropWhile rustIsWhitespace l.reverse]
  rw [List.reverse_append]
  rfl

theorem hasSubstr_trim (pat l : List Char)
    (h : hasSubstr pat (trimRust l) = true) : hasSubstr pat l = true := by
  have h1 : hasSubstr pat (trimStart l) = true := by
    rw [← trimEnd_decomp (trimStart l)]
    exact hasSubstr_append_left _ _ _ h
  rw [← trimStart_decomp l]
  exact hasSubstr_append_right _ _ _ h1

/-- C7: for every event stream the external parser can produce, the output of
the block normalizer `render_markdown` contains no run of three (or more)
consecutive line breaks: at most one blank line ever separates two blocks. -/
theorem c7_no_triple_newline (events : List MdEvent) :
    hasSubstr nnn (render_markdown events) = false := by
  cases h : hasSubstr nnn (render_markdown events) with
  | false => rfl
  | true =>
    exfalso
    unfold render_markdown at h
    have h2 := hasSubstr_trim nnn _ h
    rw [collapse_no_nnn] at h2
    exact Bool.false_ne_true h2

/-- C8: the blank-line collapse pass of `render_markdown` is idempotent:
running the collapse loop on its own output returns the output unchanged. -/
theorem c8_collapse_idempotent (s : List Char) :
    collapseNewlines (collapseNewlines s) = collapseNewlines s := by
  have hfix : ∀ t : List Char, hasSubstr nnn t = false → collapseNewlines t = t := by
    intro t ht
    unfold collapseNewlines
    exact collapseGo_of_no _ _ ht
  exact hfix _ (collapse_no_nnn s)

/-! ## Tokenizer: support lemmas -/

theorem findPat_decomp (pat : List Char) :
    ∀ (l : List Char) (i : Nat), findPat pat l = some i →
      l = l.take i ++ pat ++ l.drop (i + pat.length) := by
  intro l
  induction l with
  | nil =>
    intro i h
    unfold findPat at h
    split at h
    · rename_i hpre
      obtain rfl : (0 : Nat) = i := Option.some.inj h
      have hp : pat = [] :=
        List.prefix_nil.mp (List.isPrefixOf_iff_prefix.mp hpre)
      simp [hp]
    · exact absurd h (by simp)
  | cons c rest ih =>
    intro i h
    unfold findPat at h
    split at h
    · rename_i hpre
      obtain rfl : (0 : Nat) = i := Option.some.inj h
      obtain ⟨u, hu⟩ := List.isPrefixOf_iff_prefix.mp hpre
      rw [← hu]
      simp [List.drop_left]
    · rename_i hpre
      obtain ⟨j, hj, rfl⟩ := Option.map_eq_some'.mp h
      have ihj := ih j hj
      rw [show j + 1 + pat.length = (j + pat.length) + 1 from by omega,
        List.drop_succ_cons, List.take_succ_cons]
      exact congrArg (List.cons c) ihj

theorem takeWhile_hash (k : Nat) (rest : List Char) :
    (List.replicate k '#' ++ ' ' :: rest).takeWhile (fun c => c == '#')
      = List.replicate k '#' := by
  induction k with
  | zero => simp [List.takeWhile]
  | succ k ih => simp [List.replicate_succ, List.takeWhile, ih]

theorem findChar_append (p : Char → Bool) (xs : List Char) (c : Char)
    (t : List Char) (hxs : ∀ x ∈ xs, p x = false) (hc : p c = true) :
    findChar p (xs ++ c :: t) = some xs.length := by
  induction xs with
  | nil => simp [findChar, hc]
  | cons x xs ih =>
    have hx : p x = false := hxs x (by simp)
    have ihx := ih (fun y hy => hxs y (by simp [hy]))
    simp [findChar, hx, ihx]

/-! ## Tokenizer: consequences of the reconstruction relation -/

theorem Recon.concat_sublist {segs : List StyledSegment} {l : List Char}
    (h : Recon segs l) : (segConcat segs).Sublist l := by
  induction h with
  | nil => simp [segConcat]
  | plain t segs rest hr ih =>
    exact (List.Sublist.refl t).append ih
  | bold t segs rest hr ih =>
    have h1 : segConcat segs |>.Sublist ('*' :: '*' :: rest) :=
      (ih.cons '*').cons '*'
    have h2 : t ++ segConcat segs |>.Sublist (t ++ '*' :: '*' :: rest) :=
      (List.Sublist.refl t).append h1
    exact (h2.cons '*').cons '*'
  | italic t segs rest hr ih =>
    have h1 : segConcat segs |>.Sublist ('*' :: rest) := ih.cons '*'
    have h2 : t ++ segConcat segs |>.Sublist (t ++ '*' :: rest) :=
      (List.Sublist.refl t).append h1
    exact h2.cons '*'
  | code t segs rest hr ih =>
    have h1 : segConcat segs |>.Sublist ('`' :: rest) := ih.cons '`'
    have h2 : t ++ segConcat segs |>.Sublist (t ++ '`' :: rest) :=
      (List.Sublist.refl t).append h1
    exact h2.cons '`'
  | header k t hk =>
    have h1 : (t : List Char).Sublist (' ' :: t) := List.sublist_cons_self _ _
    have h2 : (' ' :: t).Sublist (List.replicate k '#' ++ ' ' :: t) :=
      List.sublist_append_right _ _
    simp only [segConcat, List.append_nil]
    exact h1.trans h2

theorem Recon.count_eq {segs : List StyledSegment} {l : List Char}
    (h : Recon segs l) (c : Char) (hstar : c ≠ '*') (htick : c ≠ '`')
    (hhash : c ≠ '#') (hspace : c ≠ ' ') :
    (segConcat segs).count c = l.count c := by
  induction h with
  | nil => rfl
  | plain t segs rest hr ih =>
    simp [segConcat, List.count_append, ih]
  | bold t segs rest hr ih =>
    simp [segConcat, List.count_append, List.count_cons, ih, Ne.symm hstar]
  | italic t segs rest hr ih =>
    simp [segConcat, List.count_append, List.count_cons, ih, Ne.symm hstar]
  | code t segs rest hr ih =>
    simp [segConcat, List.count_append, List.count_cons, ih, Ne.symm htick]
  | header k t hk =>
    simp [segConcat, List.count_append, List.count_cons, List.count_replicate,
      Ne.symm hhash, Ne.symm hspace]

theorem Recon.concat_exact {segs : List StyledSegment} {l : List Char}
    (h : Recon segs l)
    (hnone : ∀ c ∈ l, c ≠ '*' ∧ c ≠ '`' ∧ c ≠ '#') :
    segConcat segs = l := by
  induction h with
  | nil => rfl
  | plain t segs rest hr ih =>
    have := ih (fun c hc => hnone c (by simp [hc]))
    simp [segConcat, this]
  | bold t segs rest hr ih =>
    exact absurd rfl (hnone '*' (by simp)).1
  | italic t segs rest hr ih =>
    exact absurd rfl (hnone '*' (by simp)).1
  | code t segs rest hr ih =>
    exact absurd rfl (hnone '`' (by simp)).2.1
  | header k t hk =>
    have hmem : ('#' : Char) ∈ List.replicate k '#' ++ ' ' :: t :=
      List.mem_append_left _ (List.mem_replicate.mpr ⟨by omega, rfl⟩)
    exact absurd rfl (hnone '#' hmem).2.2

theorem tokGo_recon (f : Nat) :
    ∀ l : List Char, l.length ≤ f → Recon (tokenizeGo f l) l := by
  induction f with
  | zero =>
    intro l hl
    have hnil : l = [] := List.length_eq_zero.mp (Nat.le_zero.mp hl)
    subst hnil
    exact Recon.nil
  | succ f ih =>
    intro l hl
    simp only [tokenizeGo]
    split
    · rename_i hnil
      subst hnil
      exact Recon.nil
    · rename_i hnil
      split
      · -- bold branch
        rename_i hb
        obtain ⟨u, hu⟩ := List.isPrefixOf_iff_prefix.mp hb
        have hu2 : l.drop 2 = u := by rw [← hu]; rfl
        split
        · rename_i e heq
          have hdec := findPat_decomp _ _ _ heq
          have hd2 : (l.drop 2).drop (e + ('*' :: '*' :: ([] : List Char)).length)
              = l.drop (e + 4) := by
            rw [List.drop_drop]
            congr 1
            simp only [List.length_cons, List.length_nil]
            omega
          have hlen : (l.drop (e + 4)).length ≤ f := by
            have h1 := List.length_drop (e + 4) l
            have h2 : 0 < l.length := List.length_pos.mpr hnil
            omega
          have hr := ih (l.drop (e + 4)) hlen
          have hl2 : l = '*' :: '*' :: ((l.drop 2).take e ++ '*' :: '*' :: l.drop (e + 4)) := by
            calc l = ('*' :: '*' :: []) ++ u := hu.symm
              _ = '*' :: '*' :: l.drop 2 := by rw [hu2]; rfl
              _ = '*' :: '*' :: ((l.drop 2).take e ++ ('*' :: '*' :: [])
                  ++ (l.drop 2).drop (e + ('*' :: '*' :: ([] : List Char)).length)) := by
                  conv_lhs => rw [hdec]
              _ = '*' :: '*' :: ((l.drop 2).take e ++ '*' :: '*' :: l.drop (e + 4)) := by
                  rw [hd2, List.append_assoc]
                  simp only [List.cons_append, List.nil_append]
          have hres := Recon.bold ((l.drop 2).take e)
            (tokenizeGo f (l.drop (e + 4))) (l.drop (e + 4)) hr
          rwa [← hl2] at hres
        · rename_i heq
          have hres := Recon.plain l [] [] Recon.nil
          rwa [List.append_nil] at hres
      · rename_i hb
        split
        · -- italic branch
          rename_i hi
          obtain ⟨u, hu⟩ := List.isPrefixOf_iff_prefix.mp hi
          have hu2 : l.drop 1 = u := by rw [← hu]; rfl
          split
          · rename_i e heq
            have hdec := findPat_decomp _ _ _ heq
            have hd2 : (l.drop 1).drop (e + ('*' :: ([] : List Char)).length)
                = l.drop (e + 2) := by
              rw [List.drop_drop]
              congr 1
              simp only [List.length_cons, List.length_nil]
              omega
            have hlen : (l.drop (e + 2)).length ≤ f := by
              have h1 := List.length_drop (e + 2) l
              have h2 : 0 < l.length := List.length_pos.mpr hnil
              omega
            have hr := ih (l.drop (e + 2)) hlen
            have hl2 : l = '*' :: ((l.drop 1).take e ++ '*' :: l.drop (e + 2)) := by
              calc l = ('*' :: []) ++ u := hu.symm
                _ = '*' :: l.drop 1 := by rw [hu2]; rfl
                _ = '*' :: ((l.drop 1).take e ++ ('*' :: [])
                    ++ (l.drop 1).drop (e + ('*' :: ([] : List Char)).length)) := by
                    conv_lhs => rw [hdec]
                _ = '*' :: ((l.drop 1).take e ++ '*' :: l.drop (e + 2)) := by
                    rw [hd2, List.append_assoc]
                    simp only [List.cons_append, List.nil_append]
            have hres := Recon.italic ((l.drop 1).take e)
              (tokenizeGo f (l.drop (e + 2))) (l.drop (e + 2)) hr
            rwa [← hl2] at hres
          · rename_i heq
            have hres := Recon.plain l [] [] Recon.nil
            rwa [List.append_nil] at hres
        · rename_i hi
          split
          · -- code branch
            rename_i hc
            obtain ⟨u, hu⟩ := List.isPrefixOf_iff_prefix.mp hc
            have hu2 : l.drop 1 = u := by rw [← hu]; rfl
            split
            · rename_i e heq
              have hdec := findPat_decomp _ _ _ heq
              have hd2 : (l.drop 1).drop (e + ('`' :: ([] : List Char)).length)
                  = l.drop (e + 2) := by
                rw [List.drop_drop]
                congr 1
                simp only [List.length_cons, List.length_nil]
                omega
              have hlen : (l.drop (e + 2)).length ≤ f := by
                have h1 := List.length_drop (e + 2) l
                have h2 : 0 < l.length := List.length_pos.mpr hnil
                omega
              have hr := ih (l.drop (e + 2)) hlen
              have hl2 : l = '`' :: ((l.drop 1).take e ++ '`' :: l.drop (e + 2)) := by
                calc l = ('`' :: []) ++ u := hu.symm
                  _ = '`' :: l.drop 1 := by rw [hu2]; rfl
                  _ = '`' :: ((l.drop 1).take e ++ ('`' :: [])
                      ++ (l.drop 1).drop (e + ('`' :: ([] : List Char)).length)) := by
                      conv_lhs => rw [hdec]
                  _ = '`' :: ((l.drop 1).take e ++ '`' :: l.drop (e + 2)) := by
                      rw [hd2, List.append_assoc]
                      simp only [List.cons_append, List.nil_append]
              have hres := Recon.code ((l.drop 1).take e)
                (tokenizeGo f (l.drop (e + 2))) (l.drop (e + 2)) hr
              rwa [← hl2] at hres
            · rename_i heq
              have hres := Recon.plain l [] [] Recon.nil
              rwa [List.append_nil] at hres
          · rename_i hc
            split
            · -- header branch
              rename_i hh
              split
              · rename_i hcond
                obtain ⟨hk1, hklen, hsp⟩ := hcond
                have hrep : l.takeWhile (fun c => c == '#')
                    = List.replicate (l.takeWhile (fun c => c == '#')).length '#' :=
                  List.eq_replicate_of_mem (fun b hb => by
                    have hbt := List.mem_takeWhile_imp hb
                    exact eq_of_beq hbt)
                have hsplit : l.takeWhile (fun c => c == '#')
                    ++ l.dropWhile (fun c => c == '#') = l :=
                  List.takeWhile_append_dropWhile _ _
                have hdw : l.drop (l.takeWhile (fun c => c == '#')).length
                    = l.dropWhile (fun c => c == '#') := by
                  have h0 := List.drop_left (l.takeWhile (fun c => c == '#'))
                    (l.dropWhile (fun c => c == '#'))
                  rwa [hsplit] at h0
                have hget : l[(l.takeWhile (fun c => c == '#')).length]
                    = ' ' := by
                  have h1 := List.getElem?_eq_getElem hklen
                  rw [hsp] at h1
                  exact (Option.some.inj h1).symm
                have hcons : l.drop (l.takeWhile (fun c => c == '#')).length
                    = ' ' :: l.drop ((l.takeWhile (fun c => c == '#')).length + 1) := by
                  rw [List.drop_eq_getElem_cons hklen, hget]
                have hl2 : l = List.replicate (l.takeWhile (fun c => c == '#')).length '#'
                    ++ ' ' :: l.drop ((l.takeWhile (fun c => c == '#')).length + 1) := by
                  calc l = l.takeWhile (fun c => c == '#')
                        ++ l.dropWhile (fun c => c == '#') := hsplit.symm
                    _ = l.takeWhile (fun c => c == '#')
                        ++ l.drop (l.takeWhile (fun c => c == '#')).length := by rw [hdw]
                    _ = List.replicate (l.takeWhile (fun c => c == '#')).length '#'
                        ++ ' ' :: l.drop ((l.takeWhile (fun c => c == '#')).length + 1) := by
                        rw [hcons]
                        conv_lhs => rw [hrep]
                        simp only [List.length_replicate]
                have hres := Recon.header (l.takeWhile (fun c => c == '#')).length
                  (l.drop ((l.takeWhile (fun c => c == '#')).length + 1)) hk1
                rwa [← hl2] at hres
              · rename_i hcond
                have hres := Recon.plain l [] [] Recon.nil
                rwa [List.append_nil] at hres
            · -- plain-run branch
              rename_i hh
              obtain ⟨c, t, rfl⟩ : ∃ c t, l = c :: t := by
                cases l with
                | nil => exact absurd rfl hnil
                | cons c t => exact ⟨c, t, rfl⟩
              have hcs : specialChar c = false := by
                rcases hx : specialChar c with _ | _
                · rfl
                · exfalso
                  rcases Bool.or_eq_true_iff.mp hx with h1 | h2
                  · rcases Bool.or_eq_true_iff.mp h1 with h3 | h4
                    · exact hi (by simp [List.isPrefixOf, eq_of_beq h3])
                    · exact hc (by simp [List.isPrefixOf, eq_of_beq h4])
                  · exact hh (by simp [List.isPrefixOf, eq_of_beq h2])
              have hn1 : 1 ≤ (findChar specialChar (c :: t)).getD (c :: t).length := by
                rw [findChar, if_neg (by simp [hcs])]
                cases hfc : findChar specialChar t with
                | none => simp
                | some j => simp
              have hlen : ((c :: t).drop
                  ((findChar specialChar (c :: t)).getD (c :: t).length)).length ≤ f := by
                have h1 := List.length_drop
                  ((findChar specialChar (c :: t)).getD (c :: t).length) (c :: t)
                omega
              have hr := ih _ hlen
              have hres := Recon.plain
                ((c :: t).take ((findChar specialChar (c :: t)).getD (c :: t).length))
                _ _ hr
              rwa [List.take_append_drop] at hres

/-! ## Tokenizer claims -/

/-- C4: tokenizer round-trip.  For every line, the concatenated segment texts
reconstruct the line with only the delimiter characters of successfully
matched markers removed (`Recon` states the exact reinsertion; the `Sublist`
and `count` conjuncts spell out that nothing else is added, reordered or
removed), and when the line contains no delimiter characters at all the
concatenation equals the line byte-for-byte. -/
theorem c4_roundtrip (l : List Char) :
    Recon (tokenize_line l) l
    ∧ (segConcat (tokenize_line l)).Sublist l
    ∧ (∀ c : Char, c ≠ '*' → c ≠ '`' → c ≠ '#' → c ≠ ' ' →
        (segConcat (tokenize_line l)).count c = l.count c)
    ∧ ((∀ c ∈ l, c ≠ '*' ∧ c ≠ '`' ∧ c ≠ '#') → segConcat (tokenize_line l) = l) := by
  have hr : Recon (tokenize_line l) l := tokGo_recon l.length l (Nat.le_refl _)
  exact ⟨hr, hr.concat_sublist,
    fun c h1 h2 h3 h4 => hr.count_eq c h1 h2 h3 h4,
    fun hn => hr.concat_exact hn⟩

/-- C4 witness: the round-trip at the delimiter-free line "ab", where the
concatenation is the line itself. -/
theorem c4_witness :
    (∀ c ∈ ('a' :: 'b' :: []), c ≠ '*' ∧ c ≠ '`' ∧ c ≠ '#')
    ∧ segConcat (tokenize_line ('a' :: 'b' :: [])) = ('a' :: 'b' :: []) :=
  ⟨by decide, (c4_roundtrip ('a' :: 'b' :: [])).2.2.2 (by decide)⟩

/-- C1 counterexample: tokenizing "a **bold without close" does not produce a
single whole-line segment — the plain-text rule first emits "a " and only
the remainder from the unterminated `**` onward becomes one Plain segment. -/
theorem c1_counterexample :
    ¬ (tokenize_line ("a **bold without close".toList)
        = [⟨"a **bold without close".toList, SegStyle.plain⟩]) := by
  decide

/-- C1 (amended): tokenizing the line "a **bold without close" with styling
enabled produces exactly two StyledSegments, "a " and "**bold without close",
both Plain: the unterminated `**` marker degrades the remainder from the
marker onward (not the whole line) to a single Plain segment. -/
theorem c1_amended_two_plain_segments :
    tokenize_line ("a **bold without close".toList)
      = [⟨"a ".toList, SegStyle.plain⟩,
         ⟨"**bold without close".toList, SegStyle.plain⟩] := by
  decide

/-- C3 counterexample: on the line "a # b" the scan emits the HeaderBold
segment "b" mid-line — the `#` is not the first character of the line (the
plain-text branch stops right before `#`, leaving it unconsumed mid-scan). -/
theorem c3_counterexample :
    SegStyle.headerBold ∈ (tokenize_line ("a # b".toList)).map StyledSegment.style
    ∧ ("a # b".toList).head? ≠ some '#' := by
  decide

theorem tokGo_header_fire (f k : Nat) (rest : List Char) (hk : 1 ≤ k)
    (hf : k + 1 + rest.length ≤ f) :
    tokenizeGo f (List.replicate k '#' ++ ' ' :: rest)
      = [⟨rest, SegStyle.headerBold⟩] := by
  obtain ⟨k', rfl⟩ : ∃ k', k = k' + 1 := ⟨k - 1, by omega⟩
  obtain ⟨f', rfl⟩ : ∃ f', f = f' + 1 := ⟨f - 1, by omega⟩
  have hL : List.replicate (k' + 1) '#' ++ ' ' :: rest
      = '#' :: (List.replicate k' '#' ++ ' ' :: rest) := by
    rw [List.replicate_succ]
    rfl
  have htw : (List.replicate (k' + 1) '#' ++ ' ' :: rest).takeWhile
      (fun c => c == '#') = List.replicate (k' + 1) '#' :=
    takeWhile_hash (k' + 1) rest
  have hlenL : (List.replicate (k' + 1) '#' ++ ' ' :: rest).length
      = (k' + 1) + (1 + rest.length) := by
    simp
    omega
  have hget : (List.replicate (k' + 1) '#' ++ ' ' :: rest)[(k' + 1)]?
      = some ' ' := by
    have h0 : (List.replicate (k' + 1) '#' : List Char).length ≤ k' + 1 := by simp
    rw [List.getElem?_append_right h0]
    simp
  have hdropL : (List.replicate (k' + 1) '#' ++ ' ' :: rest).drop (k' + 1 + 1)
      = rest := by
    have hA : List.replicate (k' + 1) '#' ++ ' ' :: rest
        = (List.replicate (k' + 1) '#' ++ (' ' :: [])) ++ rest := by
      rw [List.append_assoc]
      rfl
    rw [hA,
      show k' + 1 + 1 = ((List.replicate (k' + 1) '#' ++ (' ' :: [])
        : List Char)).length from by simp]
    exact List.drop_left _ _
  simp only [tokenizeGo]
  rw [if_neg (by rw [hL]; simp)]
  rw [if_neg (by rw [hL]; simp [List.isPrefixOf])]
  rw [if_neg (by rw [hL]; simp [List.isPrefixOf])]
  rw [if_neg (by rw [hL]; simp [List.isPrefixOf])]
  rw [if_pos (by rw [hL]; simp [List.isPrefixOf])]
  rw [if_pos ?hcond]
  case hcond =>
    refine ⟨?_, ?_, ?_⟩
    · rw [htw]
      simp
    · rw [htw, hlenL]
      simp only [List.length_replicate]
      omega
    · rw [htw, List.length_replicate]
      exact hget
  rw [htw, List.length_replicate, hdropL]

/-- C3 (amended): the header rule is not confined to line starts.  It fires
whenever the scan position reaches a run of `#` followed by a space; since
the plain-text branch stops right before any `#`, a line consisting of a
nonempty special-character-free prefix followed by `#`s and a space tokenizes
to that prefix as Plain and the rest of the line as a HeaderBold segment
starting mid-line. -/
theorem c3_amended_header_fires_midline (p : List Char) (k : Nat)
    (rest : List Char) (hp : p ≠ [])
    (hspec : ∀ c ∈ p, specialChar c = false) (hk : 1 ≤ k) :
    tokenize_line (p ++ (List.replicate k '#' ++ ' ' :: rest))
      = [⟨p, SegStyle.plain⟩, ⟨rest, SegStyle.headerBold⟩] := by
  obtain ⟨c, p', rfl⟩ : ∃ c p', p = c :: p' := by
    cases p with
    | nil => exact absurd rfl hp
    | cons c p' => exact ⟨c, p', rfl⟩
  have hcs : specialChar c = false := hspec c (by simp)
  have hc3 : c ≠ '*' ∧ c ≠ '`' ∧ c ≠ '#' := by
    refine ⟨?_, ?_, ?_⟩ <;> intro hcc <;> rw [hcc] at hcs <;> simp [specialChar] at hcs
  obtain ⟨k', rfl⟩ : ∃ k', k = k' + 1 := ⟨k - 1, by omega⟩
  have hT : List.replicate (k' + 1) '#' ++ ' ' :: rest
      = '#' :: (List.replicate k' '#' ++ ' ' :: rest) := by
    rw [List.replicate_succ]
    rfl
  have hfc : findChar specialChar
      ((c :: p') ++ (List.replicate (k' + 1) '#' ++ ' ' :: rest))
      = some (c :: p').length := by
    rw [hT]
    exact findChar_append specialChar (c :: p') '#' _ hspec (by decide)
  have hLlen : ((c :: p') ++ (List.replicate (k' + 1) '#' ++ ' ' :: rest)).length
      = ((p' ++ (List.replicate (k' + 1) '#' ++ ' ' :: rest)).length) + 1 := by
    simp
  simp only [tokenize_line]
  rw [hLlen]
  simp only [tokenizeGo]
  rw [if_neg (by simp)]
  rw [if_neg (by simp [List.isPrefixOf, Ne.symm hc3.1])]
  rw [if_neg (by simp [List.isPrefixOf, Ne.symm hc3.1])]
  rw [if_neg (by simp [List.isPrefixOf, Ne.symm hc3.2.1])]
  rw [if_neg (by simp [List.isPrefixOf, Ne.symm hc3.2.2])]
  rw [hfc]
  simp only [Option.getD_some]
  rw [List.take_left, List.drop_left]
  rw [tokGo_header_fire _ (k' + 1) rest (by omega) (by simp; omega)]

/-- C3 witness: the amended statement at the concrete line "a # b". -/
theorem c3_witness :
    (('a' :: ' ' :: []) ≠ ([] : List Char)
      ∧ (∀ c ∈ ('a' :: ' ' :: []), specialChar c = false) ∧ 1 ≤ 1)
    ∧ tokenize_line (('a' :: ' ' :: []) ++ (List.replicate 1 '#' ++ ' ' :: ('b' :: [])))
        = [⟨'a' :: ' ' :: [], SegStyle.plain⟩, ⟨'b' :: [], SegStyle.headerBold⟩] :=
  ⟨⟨by decide, by decide, by decide⟩,
    c3_amended_header_fires_midline ('a' :: ' ' :: []) 1 ('b' :: [])
      (by decide) (by decide) (by decide)⟩

end Mess
